import Mathlib

/-!
Shallow embedding of `src/noughts_and_crosses.cpp`
(noughts-and-crosses game engine, board parameterized by size `N`).

Modelling conventions:
* C++ `float` / `glm::vec2` arithmetic is modelled exactly over `ℚ`
  (the coordinate maps are linear maps and `std::floor` is `Int.floor`).
* `std::optional<T>` is `Option T`.
* `Board<size>` stores its cells in a flat list of length `size * size`,
  indexed by `x + y * size`, exactly as the C++ `std::array` member.
* Reads through `Board::operator[]` are modelled total with a `none`
  default; the C++ `assert` precondition is captured by the predicate
  `CellIndex.inRange` and claim C8.
* Console output (`std::cout`) is modelled by returning the list of lines
  printed; the rendering context is modelled by returning what would be
  drawn.
-/

namespace NAC

/-- C++ `enum class Player { Noughts, Crosses }`. -/
inductive Player
  | Noughts
  | Crosses
deriving DecidableEq, Repr, Fintype

/-- C++ `struct CellIndex { int x; int y; }`. -/
structure CellIndex where
  x : Int
  y : Int
deriving DecidableEq, Repr

/-- The in-range precondition asserted by `Board::operator[]`:
`index.x >= 0 && index.x < size && index.y >= 0 && index.y < size`. -/
def CellIndex.inRange (i : CellIndex) (N : Nat) : Prop :=
  0 ≤ i.x ∧ i.x < N ∧ 0 ≤ i.y ∧ i.y < N

instance (i : CellIndex) (N : Nat) : Decidable (i.inRange N) := by
  unfold CellIndex.inRange; infer_instance

/-- Flat storage position used by `Board::operator[]`:
`_cells[index.x + index.y * size]`. -/
def flatIndex (N : Nat) (i : CellIndex) : Nat :=
  i.x.toNat + i.y.toNat * N

/-- C++ `template<int size> class Board`, a `std::array<std::optional<Player>, size*size>`. -/
structure Board (N : Nat) where
  cells : List (Option Player)
  hlen : cells.length = N * N

/-- Read a cell (`Board::operator[] const`).  Out-of-range reads, which
assert in C++, return `none` here. -/
def Board.get (b : Board N) (i : CellIndex) : Option Player :=
  b.cells.getD (flatIndex N i) none

/-- Write a cell (`Board::operator[]` as lvalue).  Out-of-range writes,
which assert in C++, are a no-op here (`List.set` out of bounds). -/
def Board.set (b : Board N) (i : CellIndex) (v : Option Player) : Board N :=
  ⟨b.cells.set (flatIndex N i) v, by rw [List.length_set]; exact b.hlen⟩

/-- A default-constructed `Board`: all `N²` cells empty. -/
def Board.empty (N : Nat) : Board N :=
  ⟨List.replicate (N * N) none, List.length_replicate _ _⟩

/-- C++ `board_is_full`: `std::all_of(board.begin(), board.end(), has_value)`
over the cells in storage order. -/
def board_is_full (b : Board N) : Bool :=
  b.cells.all (fun cell => cell.isSome)

/-- C++ `change_player`. -/
def change_player (player : Player) : Player :=
  match player with
  | Player.Noughts => Player.Crosses
  | Player.Crosses => Player.Noughts

/-- C++ `try_to_play`: if a cell is hovered and empty, write the current
player there and flip the turn; otherwise change nothing.  Returns the
updated `(board, current_player)` pair (both are by-reference parameters
in C++). -/
def try_to_play (cell_index : Option CellIndex) (b : Board N) (current_player : Player) :
    Board N × Player :=
  match cell_index with
  | none => (b, current_player)
  | some i =>
      if (b.get i).isSome then
        (b, current_player)
      else
        (b.set i (some current_player), change_player current_player)

/-! ## Coordinate mapping (exact-rational model of the `float` code) -/

/-- `p6::map(value, inMin, inMax, outMin, outMax)`: linear remap of a
scalar from `[inMin, inMax]` to `[outMin, outMax]`. -/
def p6map (v inMin inMax outMin outMax : ℚ) : ℚ :=
  outMin + (v - inMin) / (inMax - inMin) * (outMax - outMin)

/-- A 2D point of the rendering context (`glm::vec2`). -/
abbrev Vec2 := ℚ × ℚ

/-- C++ `cell_radius`: `1.f / board_size`. -/
def cell_radius (board_size : Nat) : ℚ :=
  1 / (board_size : ℚ)

/-- C++ `cell_bottom_left_corner`: `p6::map(idx, 0, board_size, -1, 1)`
componentwise. -/
def cell_bottom_left_corner (index : CellIndex) (board_size : Nat) : Vec2 :=
  (p6map (index.x : ℚ) 0 (board_size : ℚ) (-1) 1,
   p6map (index.y : ℚ) 0 (board_size : ℚ) (-1) 1)

/-- C++ `cell_center`: bottom-left corner plus the scalar `cell_radius`
(added to both components, as `vec2 + float` does in glm). -/
def cell_center (index : CellIndex) (board_size : Nat) : Vec2 :=
  ((cell_bottom_left_corner index board_size).1 + cell_radius board_size,
   (cell_bottom_left_corner index board_size).2 + cell_radius board_size)

/-- C++ `cell_hovered_by`: map the pointer from `[-1,1]²` to
`[0,board_size]²`, floor both components, and return the index iff it is
in range. -/
def cell_hovered_by (position : Vec2) (board_size : Nat) : Option CellIndex :=
  let pos : Vec2 :=
    (p6map position.1 (-1) 1 0 (board_size : ℚ),
     p6map position.2 (-1) 1 0 (board_size : ℚ))
  let index : CellIndex := ⟨⌊pos.1⌋, ⌊pos.2⌋⟩
  if 0 ≤ index.x ∧ index.x < board_size ∧ 0 ≤ index.y ∧ index.y < board_size then
    some index
  else
    none

/-! ## Win detection -/

/-- The `are_all_equal` local lambda of `check_for_winner_on_line`:
`for position = 0 .. board_size - 2`, adjacent cells along the line must
compare equal as optionals. -/
def line_all_equal (b : Board N) (index_generator : Nat → CellIndex) : Bool :=
  (List.range (N - 1)).all
    (fun position =>
      decide (b.get (index_generator position) = b.get (index_generator (position + 1))))

/-- C++ `check_for_winner_on_line`: all adjacent cells along the line must
compare equal (as optionals), and the first must be occupied; then the
first cell's occupant is the winner. -/
def check_for_winner_on_line (b : Board N) (index_generator : Nat → CellIndex) :
    Option Player :=
  if line_all_equal b index_generator ∧ (b.get (index_generator 0)).isSome then
    b.get (index_generator 0)
  else
    none

/-- The column-`x` index generator from `check_for_winner`:
`position ↦ CellIndex{x, position}`. -/
def colLine (x : Nat) : Nat → CellIndex :=
  fun position => ⟨(x : Int), (position : Int)⟩

/-- The row-`y` index generator from `check_for_winner`:
`position ↦ CellIndex{position, y}`. -/
def rowLine (y : Nat) : Nat → CellIndex :=
  fun position => ⟨(position : Int), (y : Int)⟩

/-- The main-diagonal index generator from `check_for_winner`:
`position ↦ CellIndex{position, position}`. -/
def diagLine : Nat → CellIndex :=
  fun position => ⟨(position : Int), (position : Int)⟩

/-- The anti-diagonal index generator from `check_for_winner`:
`position ↦ CellIndex{position, board_size - position - 1}`. -/
def antiDiagLine (N : Nat) : Nat → CellIndex :=
  fun position => ⟨(position : Int), (N : Int) - (position : Int) - 1⟩

/-- C++ `check_for_winner`: columns in order `x = 0..N-1` (each loop stops
as soon as a winner is found), then rows `y = 0..N-1`, then the main
diagonal, then the anti-diagonal. -/
def check_for_winner (b : Board N) : Option Player :=
  ((((List.range N).findSome? (fun x => check_for_winner_on_line b (colLine x))).or
      ((List.range N).findSome? (fun y => check_for_winner_on_line b (rowLine y)))).or
    (check_for_winner_on_line b diagLine)).or
    (check_for_winner_on_line b (antiDiagLine N))

/-- C++ `game_is_finished`: returns whether the game ended, paired with
the lines printed to standard output. -/
def game_is_finished (b : Board N) : Bool × List String :=
  match check_for_winner b with
  | some Player.Noughts => (true, ["Noughts have won!"])
  | some Player.Crosses => (true, ["Crosses have won!"])
  | none =>
      if board_is_full b then
        (true, ["This is a draw!"])
      else
        (false, [])

/-- C++ `try_draw_player_on_hovered_cell`: returns the glyph drawn on the
hovered cell (player and position), or `none` when nothing is drawn.
The pointer position `ctx.mouse()` is passed explicitly. -/
def try_draw_player_on_hovered_cell (player : Player) (b : Board N) (mouse : Vec2) :
    Option (Player × CellIndex) :=
  match cell_hovered_by mouse N with
  | none => none
  | some hovered_cell =>
      if (b.get hovered_cell).isSome then
        none
      else
        some (player, hovered_cell)

/-! ## Session model: sequences of moves -/

/-- One game state: the board plus whose turn it is. -/
def GameState (N : Nat) := Board N × Player

/-- The initial session state of `play_noughts_and_crosses`: empty board,
Crosses to move. -/
def initState (N : Nat) : GameState N :=
  (Board.empty N, Player.Crosses)

/-- One `mouse_pressed` callback: feed an (optional) cell index to
`try_to_play`. -/
def step (s : GameState N) (oi : Option CellIndex) : GameState N :=
  try_to_play oi s.1 s.2

/-- A whole sequence of presses. -/
def playAll (s : GameState N) (moves : List (Option CellIndex)) : GameState N :=
  moves.foldl step s

/-- The board after the first `k` presses of `moves`, starting from the
empty board. -/
def boardAt (N : Nat) (moves : List (Option CellIndex)) (k : Nat) : Board N :=
  (playAll (initState N) (moves.take k)).1

/-- Number of occupied cells of a board. -/
def occupiedCount (b : Board N) : Nat :=
  b.cells.countP (fun cell => cell.isSome)

/-- Whether a press is legal (board-changing) in state `s`: it names a
cell and that cell's storage slot is empty. -/
def legalStep (s : GameState N) (oi : Option CellIndex) : Bool :=
  match oi with
  | none => false
  | some i => decide ((s.1.get i) = none) && decide (flatIndex N i < N * N)

/-- Number of legal (board-changing) presses in a sequence. -/
def legalCount (s : GameState N) (moves : List (Option CellIndex)) : Nat :=
  match moves with
  | [] => 0
  | oi :: rest => (if legalStep s oi then 1 else 0) + legalCount (step s oi) rest

/-! ## Specification-side predicates -/

/-- A line is won by `p` iff all `N` of its cells contain `p`. -/
def lineWon (b : Board N) (index_generator : Nat → CellIndex) (p : Player) : Prop :=
  ∀ position, position < N → b.get (index_generator position) = some p

instance (b : Board N) (g : Nat → CellIndex) (p : Player) : Decidable (lineWon b g p) := by
  unfold lineWon; infer_instance

/-- The `2N + 2` win lines in the spec's fixed evaluation order: columns
`x = 0..N-1`, rows `y = 0..N-1`, main diagonal, anti-diagonal. -/
def allLines (N : Nat) : List (Nat → CellIndex) :=
  (List.range N).map colLine ++ (List.range N).map rowLine ++ [diagLine, antiDiagLine N]

/-- Some win line of the board is fully occupied by one player. -/
def existsWonLine (b : Board N) : Prop :=
  ∃ p : Player, ∃ g ∈ allLines N, lineWon b g p

instance (b : Board N) : Decidable (existsWonLine b) := by
  unfold existsWonLine; infer_instance

/-- The victory line printed for a player by `game_is_finished`. -/
def winMsg (p : Player) : String :=
  match p with
  | Player.Noughts => "Noughts have won!"
  | Player.Crosses => "Crosses have won!"

/-- A 3×3 board whose column 0 is all Noughts and whose column 1 is all
Crosses (cells listed in storage order `x + y * 3`). -/
def dblBoard : Board 3 :=
  ⟨[some Player.Noughts, some Player.Crosses, none,
    some Player.Noughts, some Player.Crosses, none,
    some Player.Noughts, some Player.Crosses, none], rfl⟩

/-- A full 3×3 board with no won line (the draw scenario S3 of the spec),
cells in storage order `x + y * 3`. -/
def drawBoard : Board 3 :=
  ⟨[some Player.Noughts, some Player.Crosses, some Player.Crosses,
    some Player.Crosses, some Player.Crosses, some Player.Noughts,
    some Player.Noughts, some Player.Noughts, some Player.Crosses], rfl⟩

/-! ## Helper lemmas: coordinate mapping -/

theorem p6map_in_eq (v : ℚ) (N : Nat) :
    p6map v (-1) 1 0 (N : ℚ) = (v + 1) / 2 * (N : ℚ) := by
  unfold p6map; ring

theorem floor_guard_iff (v : ℚ) (N : Nat) (hN : 0 < N) :
    (0 ≤ ⌊(v + 1) / 2 * (N : ℚ)⌋ ∧ ⌊(v + 1) / 2 * (N : ℚ)⌋ < (N : Int)) ↔
      (-1 ≤ v ∧ v < 1) := by
  have hNq : (0 : ℚ) < (N : ℚ) := by exact_mod_cast hN
  have h1 : (0 : Int) ≤ ⌊(v + 1) / 2 * (N : ℚ)⌋ ↔ (-1 : ℚ) ≤ v := by
    rw [Int.le_floor]
    push_cast
    rw [mul_nonneg_iff_of_pos_right hNq]
    constructor <;> intro h <;> linarith
  have h2 : ⌊(v + 1) / 2 * (N : ℚ)⌋ < (N : Int) ↔ v < 1 := by
    rw [Int.floor_lt]
    push_cast
    rw [mul_lt_iff_lt_one_left hNq, div_lt_one (by norm_num : (0:ℚ) < 2)]
    constructor <;> intro h <;> linarith
  rw [h1, h2]

theorem center_coord (z : Int) (N : Nat) (hN : 0 < N) :
    p6map (p6map (z : ℚ) 0 (N : ℚ) (-1) 1 + cell_radius N) (-1) 1 0 (N : ℚ) =
      (z : ℚ) + 1 / 2 := by
  have hNq : ((N : ℚ)) ≠ 0 := by
    exact_mod_cast Nat.pos_iff_ne_zero.mp hN
  unfold p6map cell_radius
  field_simp
  ring

theorem floor_int_add_half (z : Int) : ⌊(z : ℚ) + 1 / 2⌋ = z := by
  rw [Int.floor_int_add]
  have : ⌊(1 : ℚ) / 2⌋ = 0 := by
    rw [Int.floor_eq_zero_iff]
    constructor <;> norm_num
  omega

theorem hover_isSome_iff (p : Vec2) (N : Nat) (hN : 0 < N) :
    (cell_hovered_by p N).isSome = true ↔
      (-1 ≤ p.1 ∧ p.1 < 1 ∧ -1 ≤ p.2 ∧ p.2 < 1) := by
  unfold cell_hovered_by
  simp only [p6map_in_eq]
  split_ifs with hc
  · simp only [Option.isSome_some, true_iff]
    obtain ⟨h1, h2, h3, h4⟩ := hc
    have hA := (floor_guard_iff p.1 N hN).mp ⟨h1, h2⟩
    have hB := (floor_guard_iff p.2 N hN).mp ⟨h3, h4⟩
    exact ⟨hA.1, hA.2, hB.1, hB.2⟩
  · simp only [Option.isSome_none, Bool.false_eq_true, false_iff]
    rintro ⟨a1, a2, a3, a4⟩
    have hA := (floor_guard_iff p.1 N hN).mpr ⟨a1, a2⟩
    have hB := (floor_guard_iff p.2 N hN).mpr ⟨a3, a4⟩
    exact hc ⟨hA.1, hA.2, hB.1, hB.2⟩

/-- **C2.** For every valid cell index, mapping the cell's center back
through the pointer hit-test returns exactly that index:
`cell_hovered_by(cell_center(idx, N), N) = idx`. -/
theorem cell_center_roundtrip (idx : CellIndex) (N : Nat) (h : idx.inRange N) :
    cell_hovered_by (cell_center idx N) N = some idx := by
  obtain ⟨hx0, hxN, hy0, hyN⟩ := h
  have hN : 0 < N := by omega
  unfold cell_hovered_by cell_center cell_bottom_left_corner
  simp only [center_coord idx.x N hN, center_coord idx.y N hN, floor_int_add_half]
  rw [if_pos ⟨hx0, hxN, hy0, hyN⟩]

/-- Witness for C2 at the concrete index `(1,2)` on a 3×3 board. -/
theorem cell_center_roundtrip_witness :
    cell_hovered_by (cell_center ⟨1, 2⟩ 3) 3 = some ⟨1, 2⟩ :=
  cell_center_roundtrip ⟨1, 2⟩ 3 (by decide)

/-- **C5 (amended: board size ≥ 1).** For boards of positive size,
`cell_hovered_by` yields a cell iff both pointer components lie in
`[-1, 1)`; in particular the corner `(+1,+1)` yields no cell. -/
theorem hover_bounds (N : Nat) (hN : 1 ≤ N) :
    (∀ p : Vec2, (cell_hovered_by p N).isSome = true ↔
      (-1 ≤ p.1 ∧ p.1 < 1 ∧ -1 ≤ p.2 ∧ p.2 < 1))
    ∧ cell_hovered_by ((1 : ℚ), (1 : ℚ)) N = none := by
  refine ⟨fun p => hover_isSome_iff p N hN, ?_⟩
  cases hh : cell_hovered_by ((1 : ℚ), (1 : ℚ)) N with
  | none => rfl
  | some i =>
      have h1 : (cell_hovered_by ((1 : ℚ), (1 : ℚ)) N).isSome = true := by
        rw [hh]; rfl
      have h2 := (hover_isSome_iff ((1 : ℚ), (1 : ℚ)) N hN).mp h1
      exact absurd h2.2.1 (by norm_num)

/-- Counterexample to C5 as stated: at board size `N = 0` the pointer
`(0,0)` has both components in `[-1, 1)` yet no cell is returned, so the
claimed equivalence fails for the board size `N = 0`. -/
theorem hover_bounds_counterexample :
    cell_hovered_by ((0 : ℚ), (0 : ℚ)) 0 = none ∧
      ((-1 : ℚ) ≤ 0 ∧ (0 : ℚ) < 1) := by
  constructor
  · unfold cell_hovered_by p6map
    norm_num
  · norm_num

/-- Witness for C5 at `N = 3`. -/
theorem hover_bounds_witness :
    cell_hovered_by ((1 : ℚ), (1 : ℚ)) 3 = none :=
  (hover_bounds 3 (by norm_num)).2

/-! ## Helper lemmas: win detection -/

theorem all_eq_head_of_adjacent {N : Nat} (f : Nat → Option Player)
    (h : ∀ k, k < N - 1 → f k = f (k + 1)) :
    ∀ k, k < N → f k = f 0 := by
  intro k
  induction k with
  | zero => intro _; rfl
  | succ n ih =>
      intro hk
      rw [← h n (by omega)]
      exact ih (by omega)

theorem check_line_sound {N : Nat} (b : Board N) (g : Nat → CellIndex) (p : Player)
    (h : check_for_winner_on_line b g = some p) : lineWon b g p := by
  unfold check_for_winner_on_line at h
  split_ifs at h with hc
  · obtain ⟨hall, _⟩ := hc
    intro pos hpos
    have hadj : ∀ k, k < N - 1 → b.get (g k) = b.get (g (k + 1)) := by
      intro k hk
      have hmem := List.all_eq_true.mp hall k (List.mem_range.mpr hk)
      exact of_decide_eq_true hmem
    have heq : b.get (g pos) = b.get (g 0) :=
      all_eq_head_of_adjacent (fun k => b.get (g k)) hadj pos hpos
    rw [heq, h]

theorem check_line_complete {N : Nat} (hN : 1 ≤ N) (b : Board N) (g : Nat → CellIndex)
    (p : Player) (hw : lineWon b g p) : check_for_winner_on_line b g = some p := by
  have h0 : b.get (g 0) = some p := hw 0 (by omega)
  unfold check_for_winner_on_line
  rw [if_pos]
  · exact h0
  · refine ⟨?_, by rw [h0]; rfl⟩
    apply List.all_eq_true.mpr
    intro k hk
    have hk2 : k < N - 1 := List.mem_range.mp hk
    apply decide_eq_true
    rw [hw k (by omega), hw (k + 1) (by omega)]

theorem findSome?_pair {α β : Type} (f : α → Option β) (a c : α) :
    List.findSome? f [a, c] = (f a).or (f c) := by
  cases h : f a <;> cases h2 : f c <;>
    simp [List.findSome?_cons, h, h2, Option.or]

theorem check_for_winner_eq_findSome {N : Nat} (b : Board N) :
    check_for_winner b = (allLines N).findSome? (fun g => check_for_winner_on_line b g) := by
  unfold check_for_winner allLines
  rw [List.findSome?_append, List.findSome?_append, List.findSome?_map, List.findSome?_map,
    findSome?_pair]
  simp only [Option.or_assoc]
  rfl

theorem findSome?_eq_of_first {α β : Type} (l : List α) (f : α → Option β) (v : β) :
    ∀ (k : Nat) (hk : k < l.length), f (l.get ⟨k, hk⟩) = some v →
      (∀ (j : Nat) (hj : j < k), f (l.get ⟨j, Nat.lt_trans hj hk⟩) = none) →
      List.findSome? f l = some v := by
  induction l with
  | nil => intro k hk; exact absurd hk (by simp)
  | cons a t ih =>
      intro k hk hsome hnone
      cases k with
      | zero =>
          rw [List.findSome?_cons]
          simp only [List.get] at hsome
          rw [hsome]
      | succ n =>
          have ha : f a = none := hnone 0 (Nat.succ_pos n)
          rw [List.findSome?_cons, ha]
          refine ih n (by simpa using hk) (by simpa using hsome) ?_
          intro j hj
          have := hnone (j + 1) (by omega)
          simpa using this

theorem check_sound_aux {N : Nat} (b : Board N) (p : Player)
    (h : check_for_winner b = some p) : ∃ g ∈ allLines N, lineWon b g p := by
  rw [check_for_winner_eq_findSome] at h
  obtain ⟨g, hg, hline⟩ := List.exists_of_findSome?_eq_some h
  exact ⟨g, hg, check_line_sound b g p hline⟩

theorem check_complete_aux {N : Nat} (hN : 1 ≤ N) (b : Board N)
    (hex : existsWonLine b) : (check_for_winner b).isSome = true := by
  obtain ⟨p, g, hg, hw⟩ := hex
  rw [check_for_winner_eq_findSome]
  cases hc : List.findSome? (fun g => check_for_winner_on_line b g) (allLines N) with
  | some q => rfl
  | none =>
      have := List.findSome?_eq_none_iff.mp hc g hg
      rw [check_line_complete hN b g p hw] at this
      exact absurd this (by simp)

/-- **C1 (amended).** For boards of positive size: if `check_for_winner`
returns `Winner(p)` then some column, row, or diagonal is fully occupied
by `p`; if any such line is fully occupied by some player then a winner
is returned; and the player of the first won line in the fixed order
columns `x = 0..N-1`, rows `y = 0..N-1`, main diagonal, anti-diagonal
determines the result. -/
theorem check_for_winner_spec (N : Nat) (hN : 1 ≤ N) (b : Board N) :
    (∀ p, check_for_winner b = some p → ∃ g ∈ allLines N, lineWon b g p)
    ∧ (existsWonLine b → (check_for_winner b).isSome = true)
    ∧ (∀ (k : Nat) (hk : k < (allLines N).length) (p : Player),
        lineWon b ((allLines N).get ⟨k, hk⟩) p →
        (∀ (j : Nat) (hj : j < k) (q : Player),
          ¬ lineWon b ((allLines N).get ⟨j, Nat.lt_trans hj hk⟩) q) →
        check_for_winner b = some p) := by
  refine ⟨fun p h => check_sound_aux b p h, fun hex => check_complete_aux hN b hex, ?_⟩
  intro k hk p hwon hfirst
  rw [check_for_winner_eq_findSome]
  apply findSome?_eq_of_first (allLines N) _ p k hk
  · exact check_line_complete hN b _ p hwon
  · intro j hj
    cases hc : check_for_winner_on_line b ((allLines N).get ⟨j, Nat.lt_trans hj hk⟩) with
    | none => rfl
    | some q =>
        exact absurd (check_line_sound b _ q hc) (hfirst j hj q)

/-- Counterexample to C1 as stated: on `dblBoard`, column 1 is fully
occupied by Crosses, yet `check_for_winner` does not return
`Winner(Crosses)` (it returns `Winner(Noughts)`, the first won line in
evaluation order), so the claimed biconditional fails at `p = Crosses`. -/
theorem check_for_winner_counterexample :
    check_for_winner dblBoard = some Player.Noughts ∧
      lineWon dblBoard (colLine 1) Player.Crosses ∧
      colLine 1 ∈ allLines 3 ∧
      check_for_winner dblBoard ≠ some Player.Crosses := by
  refine ⟨by decide, by decide, ?_, by decide⟩
  unfold allLines
  apply List.mem_append_left
  apply List.mem_append_left
  exact List.mem_map.mpr ⟨1, by decide, rfl⟩

/-- Witness for C1 on a concrete won board. -/
theorem check_for_winner_spec_witness :
    ∃ g ∈ allLines 3, lineWon dblBoard g Player.Noughts :=
  (check_for_winner_spec 3 (by norm_num) dblBoard).1 Player.Noughts (by decide)

/-! ## Turn controller -/

/-- **C3.** For an in-range (or absent) candidate cell: an absent index or
an occupied cell leaves board and player unchanged (and reports nothing);
an empty cell is set to the current player and the turn flips to the
other side. -/
theorem try_to_play_spec (N : Nat) (oi : Option CellIndex) (b : Board N) (pl : Player)
    (hin : ∀ i, oi = some i → i.inRange N) :
    (oi = none → try_to_play oi b pl = (b, pl))
    ∧ (∀ i, oi = some i → (b.get i).isSome = true → try_to_play oi b pl = (b, pl))
    ∧ (∀ i, oi = some i → b.get i = none →
        try_to_play oi b pl = (b.set i (some pl), change_player pl))
    ∧ change_player pl ≠ pl := by
  refine ⟨?_, ?_, ?_, ?_⟩
  · rintro rfl; rfl
  · rintro i rfl hocc
    unfold try_to_play
    show (if (b.get i).isSome = true then (b, pl)
      else (b.set i (some pl), change_player pl)) = (b, pl)
    rw [if_pos hocc]
  · rintro i rfl hemp
    unfold try_to_play
    show (if (b.get i).isSome = true then (b, pl)
      else (b.set i (some pl), change_player pl)) = (b.set i (some pl), change_player pl)
    rw [if_neg (by rw [hemp]; simp)]
  · cases pl <;> simp [change_player]

/-- Witness for C3: playing the empty cell `(0,0)` of the empty 3×3 board. -/
theorem try_to_play_spec_witness :
    try_to_play (some ⟨0, 0⟩) (Board.empty 3) Player.Crosses =
      ((Board.empty 3).set ⟨0, 0⟩ (some Player.Crosses), change_player Player.Crosses) :=
  (try_to_play_spec 3 (some ⟨0, 0⟩) (Board.empty 3) Player.Crosses
    (by rintro i h; injection h with h2; rw [← h2]; decide)).2.2.1 ⟨0, 0⟩ rfl (by decide)

/-! ## Hover preview -/

/-- **C9.** The hover preview draws exactly the current player's glyph on
the hovered cell when that cell exists and is empty; it never draws on an
occupied cell and never draws the other player. -/
theorem hover_preview_spec (N : Nat) (pl : Player) (b : Board N) (mouse : Vec2)
    (q : Player) (i : CellIndex) :
    try_draw_player_on_hovered_cell pl b mouse = some (q, i) ↔
      (q = pl ∧ cell_hovered_by mouse N = some i ∧ b.get i = none) := by
  unfold try_draw_player_on_hovered_cell
  cases hh : cell_hovered_by mouse N with
  | none => simp
  | some j =>
      show (if (b.get j).isSome = true then none else some (pl, j)) = some (q, i) ↔
        (q = pl ∧ some j = some i ∧ b.get i = none)
      by_cases hocc : (b.get j).isSome = true
      · rw [if_pos hocc]
        constructor
        · intro hcontra
          exact absurd hcontra (by simp)
        · rintro ⟨rfl, hji, hemp⟩
          injection hji with hji2
          rw [hji2, hemp] at hocc
          exact absurd hocc (by simp)
      · rw [if_neg hocc]
        constructor
        · intro hsome
          injection hsome with hsome2
          have hq : pl = q := congrArg Prod.fst hsome2
          have hi : j = i := congrArg Prod.snd hsome2
          refine ⟨hq.symm, by rw [hi], ?_⟩
          rw [← hi]
          exact Option.not_isSome_iff_eq_none.mp hocc
        · rintro ⟨rfl, hji, _⟩
          injection hji with hji2
          rw [hji2]

/-! ## Helper lemmas: board mutation -/

theorem Board.get_empty (N : Nat) (i : CellIndex) : (Board.empty N).get i = none := by
  unfold Board.empty Board.get
  rw [List.getD_eq_getElem?_getD, List.getElem?_replicate]
  split_ifs <;> rfl

theorem Board.get_def {N : Nat} (b : Board N) (i : CellIndex) :
    b.get i = b.cells.getD (flatIndex N i) none := rfl

theorem Board.cells_set {N : Nat} (b : Board N) (i : CellIndex) (v : Option Player) :
    (b.set i v).cells = b.cells.set (flatIndex N i) v := rfl

theorem step_preserves_occupied {N : Nat} (s : GameState N) (oi : Option CellIndex)
    (i : CellIndex) (p : Player) (h : s.1.get i = some p) :
    (step s oi).1.get i = some p := by
  unfold step try_to_play
  cases oi with
  | none => exact h
  | some j =>
      show (if (s.1.get j).isSome = true then (s.1, s.2)
        else (s.1.set j (some s.2), change_player s.2)).1.get i = some p
      by_cases hocc : (s.1.get j).isSome = true
      · rw [if_pos hocc]
        exact h
      · rw [if_neg hocc]
        show (s.1.set j (some s.2)).get i = some p
        rw [Board.get_def, List.getD_eq_getElem?_getD] at h
        rw [Board.get_def, Board.cells_set, List.getD_eq_getElem?_getD, List.getElem?_set]
        split_ifs with he hlt
        · exfalso
          apply hocc
          rw [Board.get_def, List.getD_eq_getElem?_getD, he]
          cases hcell : s.1.cells[flatIndex N i]? with
          | none =>
              rw [hcell] at h
              exact absurd h (by simp)
          | some c =>
              rw [hcell] at h
              simp only [Option.getD_some] at h
              simp only [Option.getD_some]
              rw [h]
              rfl
        · exfalso
          have hge : s.1.cells.length ≤ flatIndex N i := by rw [← he]; omega
          rw [List.getElem?_eq_none hge] at h
          exact absurd h (by simp)
        · exact h

theorem playAll_preserves_occupied {N : Nat} (s : GameState N)
    (moves : List (Option CellIndex)) (i : CellIndex) (p : Player)
    (h : s.1.get i = some p) : (playAll s moves).1.get i = some p := by
  induction moves generalizing s with
  | nil => exact h
  | cons m rest ih => exact ih (step s m) (step_preserves_occupied s m i p h)

theorem boardAt_mono (N : Nat) (moves : List (Option CellIndex)) (i : CellIndex)
    (q : Player) (k m : Nat) (hkm : k ≤ m)
    (h : (boardAt N moves k).get i = some q) :
    (boardAt N moves m).get i = some q := by
  have hsplit : moves.take m = moves.take k ++ (moves.take m).drop k := by
    conv_lhs => rw [← List.take_append_drop k (moves.take m)]
    rw [List.take_take, Nat.min_eq_left hkm]
  unfold boardAt playAll at h ⊢
  rw [hsplit, List.foldl_append]
  exact playAll_preserves_occupied _ _ i q h

theorem boardAt_zero (N : Nat) (moves : List (Option CellIndex)) (i : CellIndex) :
    (boardAt N moves 0).get i = none := by
  unfold boardAt playAll
  rw [List.take_zero, List.foldl_nil]
  exact Board.get_empty N i

/-- **C4.** Starting from the empty board, along any press sequence an
occupied cell keeps its occupant forever (never overwritten or cleared),
and each finally-occupied cell was written by exactly one press. -/
theorem move_legality_preservation (N : Nat) (moves : List (Option CellIndex))
    (i : CellIndex) (p : Player)
    (h : (boardAt N moves moves.length).get i = some p) :
    (∀ (k m : Nat) (q : Player), k ≤ m → (boardAt N moves k).get i = some q →
      (boardAt N moves m).get i = some q)
    ∧ (∃! k, k < moves.length ∧ (boardAt N moves k).get i = none ∧
        (boardAt N moves (k + 1)).get i = some p) := by
  constructor
  · intro k m q hkm hq
    exact boardAt_mono N moves i q k m hkm hq
  · have hex : ∃ k, ((boardAt N moves k).get i).isSome = true :=
      ⟨moves.length, by rw [h]; rfl⟩
    set k0 := Nat.find hex with hk0def
    have hk0 : ((boardAt N moves k0).get i).isSome = true := Nat.find_spec hex
    have hmin : ∀ j, j < k0 → ¬ ((boardAt N moves j).get i).isSome = true :=
      fun j hj => Nat.find_min hex hj
    have hk0pos : 0 < k0 := by
      rcases Nat.eq_zero_or_pos k0 with h0 | h0
      · exfalso
        rw [h0] at hk0
        rw [boardAt_zero] at hk0
        exact absurd hk0 (by simp)
      · exact h0
    have hk0len : k0 ≤ moves.length := Nat.find_min' hex (by rw [h]; rfl)
    have hk0p : (boardAt N moves k0).get i = some p := by
      obtain ⟨q, hq⟩ := Option.isSome_iff_exists.mp hk0
      have hql := boardAt_mono N moves i q k0 moves.length hk0len hq
      rw [h] at hql
      injection hql with h2
      rw [hq, h2]
    refine ⟨k0 - 1, ⟨by omega, ?_, ?_⟩, ?_⟩
    · cases hcell : (boardAt N moves (k0 - 1)).get i with
      | none => rfl
      | some c =>
          exfalso
          apply hmin (k0 - 1) (by omega)
          rw [hcell]
          rfl
    · have hsucc : k0 - 1 + 1 = k0 := by omega
      rw [hsucc]
      exact hk0p
    · rintro k2 ⟨hklen, hknone, hksome⟩
      have h1 : k0 ≤ k2 + 1 := Nat.find_min' hex (by rw [hksome]; rfl)
      have h2 : k2 < k0 := by
        by_contra hcon
        push_neg at hcon
        have hmono := boardAt_mono N moves i p k0 k2 hcon hk0p
        rw [hknone] at hmono
        exact absurd hmono (by simp)
      omega

/-- Witness for C4: one press on the 1×1 board. -/
theorem move_legality_preservation_witness :
    ∃! k, k < 1 ∧ (boardAt 1 [some ⟨0, 0⟩] k).get ⟨0, 0⟩ = none ∧
      (boardAt 1 [some ⟨0, 0⟩] (k + 1)).get ⟨0, 0⟩ = some Player.Crosses :=
  (move_legality_preservation 1 [some ⟨0, 0⟩] ⟨0, 0⟩ Player.Crosses (by decide)).2

/-! ## Helper lemmas: occupancy counting -/

theorem countP_set_isSome (l : List (Option Player)) (n : Nat) (hn : n < l.length)
    (hnone : l.getD n none = none) (v : Player) :
    (l.set n (some v)).countP (fun c => c.isSome) =
      l.countP (fun c => c.isSome) + 1 := by
  rw [List.countP_set _ _ _ _ hn]
  have hcell : l[n] = none := by
    rw [List.getD_eq_getElem?_getD, List.getElem?_eq_getElem hn] at hnone
    simpa using hnone
  rw [hcell]
  simp

theorem occupied_step {N : Nat} (s : GameState N) (oi : Option CellIndex) :
    occupiedCount (step s oi).1 =
      occupiedCount s.1 + (if legalStep s oi then 1 else 0) := by
  unfold occupiedCount legalStep step try_to_play
  cases oi with
  | none => simp
  | some j =>
      show (if (s.1.get j).isSome = true then (s.1, s.2)
          else (s.1.set j (some s.2), change_player s.2)).1.cells.countP
            (fun c => c.isSome) =
        s.1.cells.countP (fun c => c.isSome) +
          (if (decide (s.1.get j = none) && decide (flatIndex N j < N * N)) = true
            then 1 else 0)
      by_cases hocc : (s.1.get j).isSome = true
      · rw [if_pos hocc]
        have hdec : decide (s.1.get j = none) = false := by
          cases hc : s.1.get j with
          | none => rw [hc] at hocc; exact absurd hocc (by simp)
          | some c => simp [hc]
        rw [hdec]
        simp
      · rw [if_neg hocc]
        have hnone : s.1.get j = none := by
          cases hc : s.1.get j with
          | none => rfl
          | some c => rw [hc] at hocc; exact absurd rfl hocc
        by_cases hlt : flatIndex N j < N * N
        · have hlen : flatIndex N j < s.1.cells.length := by rw [s.1.hlen]; exact hlt
          rw [Board.cells_set,
            countP_set_isSome _ _ hlen (by rw [← Board.get_def]; exact hnone) s.2]
          simp [hnone, hlt]
        · rw [Board.cells_set, List.set_eq_of_length_le (by rw [s.1.hlen]; omega)]
          simp [hnone, hlt]

theorem occupied_playAll {N : Nat} (s : GameState N) (moves : List (Option CellIndex)) :
    occupiedCount (playAll s moves).1 = occupiedCount s.1 + legalCount s moves := by
  induction moves generalizing s with
  | nil => rfl
  | cons m rest ih =>
      show occupiedCount (playAll (step s m) rest).1 = _
      rw [ih (step s m), occupied_step]
      show _ = occupiedCount s.1 +
        ((if legalStep s m then 1 else 0) + legalCount (step s m) rest)
      omega

theorem occupied_empty (N : Nat) : occupiedCount (Board.empty N) = 0 := by
  unfold occupiedCount Board.empty
  rw [List.countP_replicate]
  simp

theorem full_of_count {N : Nat} (b : Board N) (hc : occupiedCount b = N * N) :
    board_is_full b = true := by
  unfold occupiedCount at hc
  unfold board_is_full
  apply List.all_eq_true.mpr
  have hl : b.cells.countP (fun c => c.isSome) = b.cells.length := by rw [hc, b.hlen]
  exact fun x hx => List.countP_eq_length.mp hl x hx

theorem finished_of_full {N : Nat} (b : Board N) (hf : board_is_full b = true) :
    (game_is_finished b).1 = true := by
  unfold game_is_finished
  cases hw : check_for_winner b with
  | some p => cases p <;> rfl
  | none => simp [hf]

/-- **C7.** From the empty board, any press sequence contains at most
`N²` legal (board-changing) presses, and after exactly `N²` legal presses
the board is full, so `game_is_finished` reports the session over. -/
theorem session_termination (N : Nat) (moves : List (Option CellIndex)) :
    legalCount (initState N) moves ≤ N * N
    ∧ (legalCount (initState N) moves = N * N →
        board_is_full (playAll (initState N) moves).1 = true
        ∧ (game_is_finished (playAll (initState N) moves).1).1 = true) := by
  have hocc : occupiedCount (playAll (initState N) moves).1 =
      legalCount (initState N) moves := by
    rw [occupied_playAll]
    show occupiedCount (Board.empty N) + _ = _
    rw [occupied_empty, Nat.zero_add]
  have hle : occupiedCount (playAll (initState N) moves).1 ≤ N * N := by
    unfold occupiedCount
    calc (playAll (initState N) moves).1.cells.countP (fun c => c.isSome)
        ≤ (playAll (initState N) moves).1.cells.length := List.countP_le_length _
      _ = N * N := (playAll (initState N) moves).1.hlen
  constructor
  · rw [← hocc]
    exact hle
  · intro heq
    have hfull : board_is_full (playAll (initState N) moves).1 = true :=
      full_of_count _ (by rw [hocc, heq])
    exact ⟨hfull, finished_of_full _ hfull⟩

/-- Witness for C7: one legal press fills the 1×1 board and ends the game. -/
theorem session_termination_witness :
    board_is_full (playAll (initState 1) [some ⟨0, 0⟩]).1 = true
    ∧ (game_is_finished (playAll (initState 1) [some ⟨0, 0⟩]).1).1 = true :=
  (session_termination 1 [some ⟨0, 0⟩]).2 (by decide)

/-! ## End-of-game announcement -/

/-- **C6.** `game_is_finished` prints exactly the winner's victory line
when a winner exists, prints the draw line only when there is no winner
and the board is full, and never reports a draw while a won line exists
(Winner takes precedence over Draw). -/
theorem draw_exclusivity (N : Nat) (hN : 1 ≤ N) (b : Board N) :
    (∀ p, check_for_winner b = some p → game_is_finished b = (true, [winMsg p]))
    ∧ (check_for_winner b = none → board_is_full b = true →
        game_is_finished b = (true, ["This is a draw!"]))
    ∧ ((game_is_finished b).2 = ["This is a draw!"] →
        ¬ existsWonLine b ∧ board_is_full b = true) := by
  refine ⟨?_, ?_, ?_⟩
  · intro p hp
    unfold game_is_finished
    rw [hp]
    cases p <;> rfl
  · intro hnone hfull
    unfold game_is_finished
    rw [hnone]
    simp [hfull]
  · intro hdraw
    unfold game_is_finished at hdraw
    cases hw : check_for_winner b with
    | some p =>
        rw [hw] at hdraw
        cases p <;> simp at hdraw
    | none =>
        rw [hw] at hdraw
        by_cases hf : board_is_full b = true
        · refine ⟨?_, hf⟩
          intro hex
          have hs := check_complete_aux hN b hex
          rw [hw] at hs
          exact absurd hs (by simp)
        · simp [hf] at hdraw

/-- Witness for C6: the draw board is announced as a draw. -/
theorem draw_exclusivity_witness :
    game_is_finished drawBoard = (true, ["This is a draw!"]) :=
  (draw_exclusivity 3 (by norm_num) drawBoard).2.1 (by decide) (by decide)

/-- **C10.** While no win line exists and some in-range cell is empty,
`game_is_finished` returns `false` and prints nothing. -/
theorem ongoing_no_output (N : Nat) (b : Board N)
    (hnw : ¬ existsWonLine b)
    (hempty : ∃ i : CellIndex, i.inRange N ∧ b.get i = none) :
    game_is_finished b = (false, []) := by
  have hnone : check_for_winner b = none := by
    cases hw : check_for_winner b with
    | none => rfl
    | some p => exact absurd ⟨p, check_sound_aux b p hw⟩ hnw
  have hnf : board_is_full b = false := by
    obtain ⟨i, hin, hemp⟩ := hempty
    obtain ⟨hx0, hxN, hy0, hyN⟩ := hin
    have hxlt : i.x.toNat < N := (Int.toNat_lt hx0).mpr hxN
    have hylt : i.y.toNat < N := (Int.toNat_lt hy0).mpr hyN
    have hflat : flatIndex N i < N * N := by
      unfold flatIndex
      calc i.x.toNat + i.y.toNat * N < N + i.y.toNat * N := by omega
        _ = (i.y.toNat + 1) * N := by ring
        _ ≤ N * N := Nat.mul_le_mul_right N (by omega)
    have hlen : flatIndex N i < b.cells.length := by rw [b.hlen]; exact hflat
    rw [Board.get_def, List.getD_eq_getElem?_getD, List.getElem?_eq_getElem hlen] at hemp
    simp only [Option.getD_some] at hemp
    unfold board_is_full
    cases hall : b.cells.all (fun cell => cell.isSome) with
    | false => rfl
    | true =>
        exfalso
        have hmem := List.all_eq_true.mp hall (b.cells[flatIndex N i]) (List.getElem_mem hlen)
        rw [hemp] at hmem
        exact absurd hmem (by simp)
  unfold game_is_finished
  rw [hnone]
  simp [hnf]

/-- Witness for C10: the empty 3×3 board is ongoing and silent. -/
theorem ongoing_no_output_witness :
    game_is_finished (Board.empty 3) = (false, []) :=
  ongoing_no_output 3 (Board.empty 3) (by decide) ⟨⟨0, 0⟩, by decide, by decide⟩

/-! ## In-range indices (the Board assertion) -/

theorem hover_origin : cell_hovered_by ((0 : ℚ), (0 : ℚ)) 3 = some ⟨1, 1⟩ := by
  unfold cell_hovered_by p6map
  norm_num

/-- **C8.** Every index reaching `Board::operator[]` from the game's own
callers satisfies the in-range assertion: indices produced by
`cell_hovered_by` are in range by its guard, every position `0..N-1` of
every win line is in range, and the drawing loops produce only in-range
indices. -/
theorem index_assertion_unreachable :
    (∀ (p : Vec2) (N : Nat) (i : CellIndex), cell_hovered_by p N = some i → i.inRange N)
    ∧ (∀ (N : Nat), 1 ≤ N → ∀ g ∈ allLines N, ∀ pos, pos < N → (g pos).inRange N)
    ∧ (∀ (N : Nat) (x y : Nat), x < N → y < N →
        CellIndex.inRange ⟨(x : Int), (y : Int)⟩ N) := by
  refine ⟨?_, ?_, ?_⟩
  · intro p N i h
    unfold cell_hovered_by at h
    simp only [p6map_in_eq] at h
    split_ifs at h with hc
    injection h with h2
    rw [← h2]
    exact hc
  · intro N hN g hg pos hpos
    unfold allLines at hg
    rcases List.mem_append.mp hg with hcr | hdiags
    · rcases List.mem_append.mp hcr with hcol | hrow
      · obtain ⟨x, hx, rfl⟩ := List.mem_map.mp hcol
        have hxN : x < N := List.mem_range.mp hx
        show (0 : Int) ≤ (x : Int) ∧ (x : Int) < (N : Int) ∧
          (0 : Int) ≤ (pos : Int) ∧ (pos : Int) < (N : Int)
        omega
      · obtain ⟨y, hy, rfl⟩ := List.mem_map.mp hrow
        have hyN : y < N := List.mem_range.mp hy
        show (0 : Int) ≤ (pos : Int) ∧ (pos : Int) < (N : Int) ∧
          (0 : Int) ≤ (y : Int) ∧ (y : Int) < (N : Int)
        omega
    · have hcases : g = diagLine ∨ g = antiDiagLine N := by
        simpa using hdiags
      rcases hcases with rfl | rfl
      · show (0 : Int) ≤ (pos : Int) ∧ (pos : Int) < (N : Int) ∧
          (0 : Int) ≤ (pos : Int) ∧ (pos : Int) < (N : Int)
        omega
      · show (0 : Int) ≤ (pos : Int) ∧ (pos : Int) < (N : Int) ∧
          (0 : Int) ≤ (N : Int) - (pos : Int) - 1 ∧ (N : Int) - (pos : Int) - 1 < (N : Int)
        omega
  · intro N x y hx hy
    show (0 : Int) ≤ (x : Int) ∧ (x : Int) < (N : Int) ∧
      (0 : Int) ≤ (y : Int) ∧ (y : Int) < (N : Int)
    omega

/-- Witness for C8: a hover-derived index and a loop index are in range. -/
theorem index_assertion_unreachable_witness :
    CellIndex.inRange ⟨1, 1⟩ 3 ∧ CellIndex.inRange ⟨0, 2⟩ 3 :=
  ⟨index_assertion_unreachable.1 ((0 : ℚ), (0 : ℚ)) 3 ⟨1, 1⟩ hover_origin,
   index_assertion_unreachable.2.2 3 0 2 (by norm_num) (by norm_num)⟩

end NAC
